import Mathlib

set_option maxHeartbeats 1000000

namespace Wandb

/-!
Verification development for the wandb excerpt: the histogram-safe tensor
summarizer, bounds widening, cycle-safe shape inspection, watch registration,
and the file-walk helpers of `wandb/sdk/lib/filenames.py`.
-/

/-! ### Part 1: `wandb/sdk/lib/filenames.py` -/

/-- The tuple `WANDB_DIRS = ("wandb", ".wandb")` from `filenames.py`. -/
def WANDB_DIRS : List String := ["wandb", ".wandb"]

/-- The path separator `os.sep` (POSIX). -/
def osSep : String := "/"

/-- Python list/string prefix test on character lists. -/
def isPre : List Char → List Char → Bool
  | [], _ => true
  | _ :: _, [] => false
  | a :: as, b :: bs => a == b && isPre as bs

/-- Python substring containment `needle in hay` on character lists. -/
def hasSub (needle : List Char) : List Char → Bool
  | [] => isPre needle []
  | c :: t => isPre needle (c :: t) || hasSub needle t

/-- `exclude_wandb_fn` from `filenames.py`:
`any(os.sep + wandb_dir + os.sep in path for wandb_dir in WANDB_DIRS)`. -/
def exclude_wandb_fn (path : String) : Bool :=
  WANDB_DIRS.any fun d => hasSub (osSep ++ d ++ osSep).data path.data

/-- Claim C10: `exclude_wandb_fn path` is true iff `path` contains
`os.sep + "wandb" + os.sep` or `os.sep + ".wandb" + os.sep` as a substring;
in particular a relative path that merely begins with `wandb/` returns false,
and a path whose final component is `wandb` returns false. -/
theorem c10_exclude_wandb_fn_characterization :
    (∀ path : String, exclude_wandb_fn path = true ↔
      (hasSub "/wandb/".data path.data = true ∨ hasSub "/.wandb/".data path.data = true))
    ∧ exclude_wandb_fn "wandb/run1/file.txt" = false
    ∧ exclude_wandb_fn "runs/wandb" = false
    ∧ exclude_wandb_fn "/home/user/wandb/file.txt" = true := by
  have e1 : osSep ++ "wandb" ++ osSep = "/wandb/" := by decide
  have e2 : osSep ++ ".wandb" ++ osSep = "/.wandb/" := by decide
  refine ⟨fun path => ?_, by decide, by decide, by decide⟩
  have e3 : osSep.data = ['/'] := by decide
  simp [exclude_wandb_fn, WANDB_DIRS, e3]

/-- Python `list.remove(x)`: drop the first element equal to `x`. -/
def pyRemove : List String → String → List String
  | [], _ => []
  | y :: ys, x => if y = x then ys else y :: pyRemove ys x

theorem pyRemove_length_of_mem (l : List String) (x : String) (hx : x ∈ l) :
    (pyRemove l x).length + 1 = l.length := by
  induction l with
  | nil => cases hx
  | cons y ys ih =>
    by_cases h : y = x
    · simp [pyRemove, h]
    · have hx2 : x ∈ ys := by
        rcases List.mem_cons.mp hx with h1 | h1
        · exact absurd h1.symm h
        · exact h1
      simp [pyRemove, h, ih hx2]

/-- The loop `for dir in dirs: if exclude_fn(dir): dirs.remove(dir)` from
`filtered_dir`, with Python's exact iterator semantics: the index advances by
one after every fetch, also when the fetched element was just removed, so the
entry that slides into the removed slot is skipped. -/
def pruneDirs (ex : String → Bool) (dirs : List String) (i : Nat) : List String :=
  if h : i < dirs.length then
    if ex dirs[i] then
      pruneDirs ex (pyRemove dirs dirs[i]) (i + 1)
    else
      pruneDirs ex dirs (i + 1)
  else dirs
termination_by dirs.length - i
decreasing_by
  · have hm : dirs[i] ∈ dirs := List.getElem_mem h
    have := pyRemove_length_of_mem dirs dirs[i] hm
    omega
  · omega

/-- A directory tree: leaves are files, inner nodes are named directories. -/
inductive FSTree where
  | file (name : String)
  | dir (name : String) (children : List FSTree)

/-- The names of the direct subdirectories, as `os.walk` would report them. -/
def dirNames (cs : List FSTree) : List String :=
  cs.filterMap fun t =>
    match t with
    | FSTree.dir n _ => some n
    | _ => none

/-- The names of the files directly inside a directory. -/
def fileNames (cs : List FSTree) : List String :=
  cs.filterMap fun t =>
    match t with
    | FSTree.file n => some n
    | _ => none

/-- `filtered_dir` from `filenames.py`, over an explicit directory tree:
walk top-down; at each directory run the pruning loop over the subdirectory
names (with Python's remove-while-iterating semantics, see `pruneDirs`),
yield each file path passing `include_fn` and failing `exclude_fn`, and
recurse only into subdirectories that survived the pruning loop. -/
def filtered_dir (inc ex : String → Bool) (dirpath : String) (cs : List FSTree) :
    List String :=
  ((fileNames cs).filterMap fun f =>
    if inc (dirpath ++ "/" ++ f) && !(ex (dirpath ++ "/" ++ f)) then
      some (dirpath ++ "/" ++ f)
    else none)
  ++ cs.attach.flatMap fun tp =>
    match tp with
    | ⟨FSTree.file _, _⟩ => []
    | ⟨FSTree.dir n cs2, hmem⟩ =>
      if (pruneDirs ex (dirNames cs) 0).contains n then
        filtered_dir inc ex (dirpath ++ "/" ++ n) cs2
      else []
termination_by sizeOf cs
decreasing_by
  have h1 : sizeOf (FSTree.dir n cs2) < sizeOf cs := List.sizeOf_lt_of_mem hmem
  simp only [FSTree.dir.sizeOf_spec] at h1
  omega

theorem filtered_dir_mem_aux (inc ex : String → Bool) :
    ∀ (N : Nat) (cs : List FSTree), sizeOf cs ≤ N → ∀ (dirpath p : String),
      p ∈ filtered_dir inc ex dirpath cs → inc p = true ∧ ex p = false := by
  intro N
  induction N with
  | zero =>
    intro cs hcs
    exfalso
    cases cs <;> simp at hcs
  | succ N ih =>
    intro cs hcs dirpath p hp
    rw [filtered_dir.eq_def] at hp
    simp only [List.mem_append, List.mem_filterMap, List.mem_flatMap,
      List.mem_attach, true_and] at hp
    rcases hp with ⟨f, hf, hite⟩ | ⟨tp, hmem2⟩
    · split at hite
      · rename_i hcond
        rw [Option.some_inj] at hite
        subst hite
        rw [Bool.and_eq_true, Bool.not_eq_eq_eq_not, Bool.not_true] at hcond
        exact ⟨hcond.1, hcond.2⟩
      · exact absurd hite (by simp)
    · rcases tp with ⟨t, ht⟩
      cases t with
      | file n => simp at hmem2
      | dir n cs2 =>
        simp only at hmem2
        split at hmem2
        · have hlt : sizeOf (FSTree.dir n cs2) < sizeOf cs := List.sizeOf_lt_of_mem ht
          have hsz : sizeOf cs2 ≤ N := by
            simp only [FSTree.dir.sizeOf_spec] at hlt
            omega
          exact ih cs2 hsz _ p hmem2
        · simp at hmem2

/-- Claim C9 (amended): every path yielded by `filtered_dir` satisfies
`include_fn` and fails `exclude_fn`.  The stronger pruning part of the claim
does not hold: the pruning loop removes entries from the list it iterates,
skipping the entry after each removal, so the walk can descend into an
excluded directory and yield files beneath it. -/
theorem c9_filtered_dir_yielded_paths (inc ex : String → Bool)
    (dirpath p : String) (cs : List FSTree)
    (hp : p ∈ filtered_dir inc ex dirpath cs) : inc p = true ∧ ex p = false :=
  filtered_dir_mem_aux inc ex (sizeOf cs) cs le_rfl dirpath p hp

/-- An `include_fn` accepting everything. -/
def incTrue : String → Bool := fun _ => true

/-- An `exclude_fn` excluding the directory names `a` and `b`. -/
def exAB : String → Bool := fun s => s == "a" || s == "b"

/-- Two adjacent excluded directories; `b` holds one file. -/
def demoTree : List FSTree :=
  [FSTree.dir "a" [], FSTree.dir "b" [FSTree.file "f"]]

/-- Claim C9 (counterexample): with two consecutive excluded directories `a`
and `b`, the pruning loop removes `a` but skips over `b` (the iterator index
advances past the slot `b` slid into), so the walk descends into `b` and
yields the file `root/b/f` beneath the excluded directory `b`. -/
theorem c9_counterexample :
    exAB "a" = true ∧ exAB "b" = true ∧
    filtered_dir incTrue exAB "root" demoTree = ["root/b/f"] := by
  refine ⟨by decide, by decide, ?_⟩
  have hprune : pruneDirs exAB ["a", "b"] 0 = ["b"] := by
    rw [pruneDirs.eq_def]
    simp [exAB, pyRemove]
    rw [pruneDirs.eq_def]
    simp
  have hprune2 : pruneDirs exAB [] 0 = [] := by
    rw [pruneDirs.eq_def]
    simp
  have hinner : filtered_dir incTrue exAB "root/b" [FSTree.file "f"] = ["root/b/f"] := by
    rw [filtered_dir.eq_def]
    simp [fileNames, dirNames, incTrue, exAB, hprune2]
  rw [filtered_dir.eq_def]
  simp [demoTree, fileNames, dirNames, hprune, hinner, incTrue, exAB]

/-- Witness instance for `c9_filtered_dir_yielded_paths`. -/
theorem c9_filtered_dir_yielded_paths_witness :
    incTrue "d/g" = true ∧ exAB "d/g" = false :=
  c9_filtered_dir_yielded_paths incTrue exAB "d" "d/g" [FSTree.file "g"] (by
    rw [filtered_dir.eq_def]
    simp [fileNames, incTrue, exAB])

/-! ### Part 2: the histogram-safe summarizer and bounds widening

The implementation (`wandb_torch.py`, class `TorchHistory`) is not among the
provided sources; only its test suite is.  The definitions below are modelled
from the spec, over exact rational arithmetic: the floating-point format is
abstracted by its three constants `eps`, `tiny` and `high`, and "one
representable precision step" near the data is modelled as
`eps * max |midpoint| tiny`, following the spec and the constants used by
`test_widen_min_max`. -/

/-- The numeric constants of a floating-point format: machine epsilon, the
smallest normal positive value, and the largest safe magnitude. -/
structure FInfo where
  eps : ℚ
  tiny : ℚ
  high : ℚ

/-- The 32-bit float constants from the test file:
`EPS32 = 2 ^ (-23)`, `TINY32 = 2 ^ (-126)`, `HIGH32 = 1e30`. -/
def finfo32 : FInfo := ⟨1 / 2 ^ 23, 1 / 2 ^ 126, 10 ^ 30⟩

/-- The 64-bit float constants from the test file:
`EPS64 = 2 ^ (-52)`, `TINY64 = 2 ^ (-1022)`, `HIGH64 = 1e300`. -/
def finfo64 : FInfo := ⟨1 / 2 ^ 52, 1 / 2 ^ 1022, 10 ^ 300⟩

/-- Modelled from the spec: the symmetric geometric expansion loop inside
`_widen_min_max` (absent from the provided sources).  Starting from a
half-width `w`, the candidate interval is the original one extended to at
least `middle ± w`; the half-width doubles until the width check passes, and
the fuel caps the total expansion at `2 ^ fuel` half-steps per side. -/
def widenStep (tmin tmax middle minWidth : ℚ) : Nat → ℚ → ℚ × ℚ
  | 0, w => (min tmin (middle - w), max tmax (middle + w))
  | fuel + 1, w =>
    if minWidth < max tmax (middle + w) - min tmin (middle - w) then
      (min tmin (middle - w), max tmax (middle + w))
    else widenStep tmin tmax middle minWidth fuel (2 * w)

/-- Modelled from the spec: `_widen_min_max` (absent from the provided
sources).  If the interval is already wider than the precision-dependent
minimum width of `64` precision steps, return it unchanged; otherwise expand
symmetrically around the midpoint in geometrically increasing steps of size
`eps * max |midpoint| tiny`, capped at `32` steps per side. -/
def widen_min_max (f : FInfo) (tmin tmax : ℚ) : ℚ × ℚ :=
  let middle := (tmin + tmax) / 2
  let step := f.eps * max |middle| f.tiny
  if 64 * step < tmax - tmin then (tmin, tmax)
  else widenStep tmin tmax middle (64 * step) 5 step

/-- Every result of the expansion loop extends the original interval to
exactly `middle ± wf` for some half-width `wf` between the initial one and
its `2 ^ fuel`-fold. -/
theorem widenStep_shape (tmin tmax middle minWidth : ℚ) :
    ∀ (fuel : Nat) (w : ℚ), 0 ≤ w → ∃ wf : ℚ, w ≤ wf ∧ wf ≤ 2 ^ fuel * w ∧
      widenStep tmin tmax middle minWidth fuel w =
        (min tmin (middle - wf), max tmax (middle + wf)) := by
  intro fuel
  induction fuel with
  | zero =>
    intro w hw
    exact ⟨w, le_rfl, by norm_num, rfl⟩
  | succ fuel ih =>
    intro w hw
    rw [widenStep]
    split
    · refine ⟨w, le_rfl, ?_, rfl⟩
      calc w = 1 * w := (one_mul w).symm
        _ ≤ 2 ^ (fuel + 1) * w := by
          apply mul_le_mul_of_nonneg_right _ hw
          exact one_le_pow₀ (by norm_num)
    · obtain ⟨wf, h1, h2, h3⟩ := ih (2 * w) (by linarith)
      refine ⟨wf, by linarith, ?_, h3⟩
      calc wf ≤ 2 ^ fuel * (2 * w) := h2
        _ = 2 ^ (fuel + 1) * w := by ring

/-- Every result of the expansion loop is either wider than `minWidth` or at
least `2 ^ (fuel + 1)` times the initial half-width wide. -/
theorem widenStep_width (tmin tmax middle minWidth : ℚ) :
    ∀ (fuel : Nat) (w : ℚ),
      minWidth < (widenStep tmin tmax middle minWidth fuel w).2 -
        (widenStep tmin tmax middle minWidth fuel w).1 ∨
      2 * (2 ^ fuel * w) ≤ (widenStep tmin tmax middle minWidth fuel w).2 -
        (widenStep tmin tmax middle minWidth fuel w).1 := by
  intro fuel
  induction fuel with
  | zero =>
    intro w
    right
    have h1 : middle - w ≥ min tmin (middle - w) := min_le_right _ _
    have h2 : middle + w ≤ max tmax (middle + w) := le_max_right _ _
    simp only [widenStep]
    linarith
  | succ fuel ih =>
    intro w
    rw [widenStep]
    split
    · left
      assumption
    · rcases ih (2 * w) with h | h
      · exact Or.inl h
      · right
        calc 2 * (2 ^ (fuel + 1) * w) = 2 * (2 ^ fuel * (2 * w)) := by ring
          _ ≤ _ := h

/-- `widen_min_max` either returns the interval unchanged (when it is already
wider than 64 precision steps) or extends it to `middle ± wf` for some
half-width `wf` between one and 32 precision steps. -/
theorem widen_min_max_spec (f : FInfo) (tmin tmax : ℚ)
    (heps : 0 ≤ f.eps) (htiny : 0 ≤ f.tiny) :
    (widen_min_max f tmin tmax = (tmin, tmax) ∧
      64 * (f.eps * max |(tmin + tmax) / 2| f.tiny) < tmax - tmin) ∨
    (∃ wf : ℚ, f.eps * max |(tmin + tmax) / 2| f.tiny ≤ wf ∧
      wf ≤ 32 * (f.eps * max |(tmin + tmax) / 2| f.tiny) ∧
      widen_min_max f tmin tmax =
        (min tmin ((tmin + tmax) / 2 - wf), max tmax ((tmin + tmax) / 2 + wf))) := by
  have hstep : 0 ≤ f.eps * max |(tmin + tmax) / 2| f.tiny :=
    mul_nonneg heps (le_trans htiny (le_max_right _ _))
  simp only [widen_min_max]
  split
  · exact Or.inl ⟨rfl, by assumption⟩
  · right
    obtain ⟨wf, h1, h2, h3⟩ := widenStep_shape tmin tmax ((tmin + tmax) / 2)
      (64 * (f.eps * max |(tmin + tmax) / 2| f.tiny)) 5
      (f.eps * max |(tmin + tmax) / 2| f.tiny) hstep
    refine ⟨wf, h1, ?_, h3⟩
    norm_num at h2
    linarith

/-- The widened interval is always at least 64 precision steps wide. -/
theorem widen_min_max_width (f : FInfo) (tmin tmax : ℚ)
    (heps : 0 ≤ f.eps) (htiny : 0 ≤ f.tiny) :
    64 * (f.eps * max |(tmin + tmax) / 2| f.tiny) ≤
      (widen_min_max f tmin tmax).2 - (widen_min_max f tmin tmax).1 := by
  simp only [widen_min_max]
  split
  · rename_i hcond
    exact le_of_lt hcond
  · rcases widenStep_width tmin tmax ((tmin + tmax) / 2)
      (64 * (f.eps * max |(tmin + tmax) / 2| f.tiny)) 5
      (f.eps * max |(tmin + tmax) / 2| f.tiny) with h | h
    · exact le_of_lt h
    · calc 64 * (f.eps * max |(tmin + tmax) / 2| f.tiny)
          = 2 * (2 ^ 5 * (f.eps * max |(tmin + tmax) / 2| f.tiny)) := by ring
        _ ≤ _ := h

/-- Claim C4: for all `tmin ≤ tmax`, `_widen_min_max` returns
`(tmin2, tmax2)` with `tmin2 ≤ tmin`, `tmax ≤ tmax2`, and
`tmax2 - tmin2 ≥ tmax - tmin`, so the original interval is contained in the
widened one and the width never decreases, including `tmin = tmax`. -/
theorem c4_widen_min_max_contains (f : FInfo) (tmin tmax : ℚ)
    (heps : 0 ≤ f.eps) (htiny : 0 ≤ f.tiny) (hle : tmin ≤ tmax) :
    (widen_min_max f tmin tmax).1 ≤ tmin ∧ tmax ≤ (widen_min_max f tmin tmax).2 ∧
      tmax - tmin ≤ (widen_min_max f tmin tmax).2 - (widen_min_max f tmin tmax).1 := by
  rcases widen_min_max_spec f tmin tmax heps htiny with ⟨heq, _⟩ | ⟨wf, h1, h2, heq⟩
  · rw [heq]
    exact ⟨le_rfl, le_rfl, le_rfl⟩
  · rw [heq]
    have ha : min tmin ((tmin + tmax) / 2 - wf) ≤ tmin := min_le_left _ _
    have hb : tmax ≤ max tmax ((tmin + tmax) / 2 + wf) := le_max_left _ _
    exact ⟨ha, hb, sub_le_sub hb ha⟩

/-- Witness instance for `c4_widen_min_max_contains`: 32-bit constants with
the degenerate interval `[1, 1]`. -/
theorem c4_widen_min_max_contains_witness :
    (widen_min_max finfo32 1 1).1 ≤ 1 ∧ (1 : ℚ) ≤ (widen_min_max finfo32 1 1).2 ∧
      (1 : ℚ) - 1 ≤ (widen_min_max finfo32 1 1).2 - (widen_min_max finfo32 1 1).1 :=
  c4_widen_min_max_contains finfo32 1 1 (by norm_num [finfo32])
    (by norm_num [finfo32]) le_rfl

/-- Claim C6: the expansion performed by `_widen_min_max` is bounded: with
`step_size = eps * max |(tmin + tmax) / 2| tiny`, both `tmin - tmin2` and
`tmax2 - tmax` are at most `100 * step_size`. -/
theorem c6_widen_min_max_bounded_expansion (f : FInfo) (tmin tmax : ℚ)
    (heps : 0 ≤ f.eps) (htiny : 0 ≤ f.tiny) (hle : tmin ≤ tmax) :
    tmin - (widen_min_max f tmin tmax).1 ≤
        100 * (f.eps * max |(tmin + tmax) / 2| f.tiny) ∧
      (widen_min_max f tmin tmax).2 - tmax ≤
        100 * (f.eps * max |(tmin + tmax) / 2| f.tiny) := by
  have hstep : 0 ≤ f.eps * max |(tmin + tmax) / 2| f.tiny :=
    mul_nonneg heps (le_trans htiny (le_max_right _ _))
  rcases widen_min_max_spec f tmin tmax heps htiny with ⟨heq, _⟩ | ⟨wf, h1, h2, heq⟩
  · rw [heq]
    constructor <;> simp <;> linarith
  · rw [heq]
    constructor
    · rcases le_total tmin ((tmin + tmax) / 2 - wf) with h | h
      · rw [min_eq_left h]
        linarith
      · rw [min_eq_right h]
        linarith
    · rcases le_total ((tmin + tmax) / 2 + wf) tmax with h | h
      · rw [max_eq_left h]
        linarith
      · rw [max_eq_right h]
        linarith

/-- Witness instance for `c6_widen_min_max_bounded_expansion`. -/
theorem c6_widen_min_max_bounded_expansion_witness :
    (1 : ℚ) - (widen_min_max finfo32 1 1).1 ≤
        100 * (finfo32.eps * max |((1 : ℚ) + 1) / 2| finfo32.tiny) ∧
      (widen_min_max finfo32 1 1).2 - 1 ≤
        100 * (finfo32.eps * max |((1 : ℚ) + 1) / 2| finfo32.tiny) :=
  c6_widen_min_max_bounded_expansion finfo32 1 1 (by norm_num [finfo32])
    (by norm_num [finfo32]) le_rfl

/-- Claim C5: for bounds within the format's safe range, the widened bounds
satisfy `-high * (1 + 32 * eps) ≤ tmin2 < tmax2 ≤ high * (1 + 32 * eps)`:
widening never escapes the representable range by more than 32 precision
steps beyond the maximum magnitude, and the result is strictly ordered. -/
theorem c5_widen_min_max_range (f : FInfo) (tmin tmax : ℚ)
    (heps : 0 < f.eps) (htiny : 0 < f.tiny) (hth : f.tiny ≤ f.high)
    (hle : tmin ≤ tmax) (hlo : -f.high ≤ tmin) (hhi : tmax ≤ f.high) :
    -(f.high * (1 + 32 * f.eps)) ≤ (widen_min_max f tmin tmax).1 ∧
      (widen_min_max f tmin tmax).1 < (widen_min_max f tmin tmax).2 ∧
      (widen_min_max f tmin tmax).2 ≤ f.high * (1 + 32 * f.eps) := by
  have hhigh : 0 < f.high := lt_of_lt_of_le htiny hth
  have hmid1 : (tmin + tmax) / 2 ≤ f.high := by linarith
  have hmid2 : -f.high ≤ (tmin + tmax) / 2 := by linarith
  have habs : |(tmin + tmax) / 2| ≤ f.high := abs_le.mpr ⟨hmid2, hmid1⟩
  have hM : max |(tmin + tmax) / 2| f.tiny ≤ f.high := max_le habs hth
  have hM0 : 0 < max |(tmin + tmax) / 2| f.tiny :=
    lt_of_lt_of_le htiny (le_max_right _ _)
  have hstep0 : 0 < f.eps * max |(tmin + tmax) / 2| f.tiny := mul_pos heps hM0
  have hstephigh : f.eps * max |(tmin + tmax) / 2| f.tiny ≤ f.eps * f.high :=
    mul_le_mul_of_nonneg_left hM (le_of_lt heps)
  have hexp : f.high * (1 + 32 * f.eps) = f.high + 32 * (f.eps * f.high) := by ring
  have hwidth := widen_min_max_width f tmin tmax (le_of_lt heps) (le_of_lt htiny)
  refine ⟨?_, by linarith, ?_⟩
  · rcases widen_min_max_spec f tmin tmax (le_of_lt heps) (le_of_lt htiny) with
      ⟨heq, _⟩ | ⟨wf, h1, h2, heq⟩
    · rw [heq]
      have : 0 ≤ 32 * (f.eps * f.high) := by positivity
      linarith
    · rw [heq]
      refine le_min (by nlinarith) (by nlinarith)
  · rcases widen_min_max_spec f tmin tmax (le_of_lt heps) (le_of_lt htiny) with
      ⟨heq, _⟩ | ⟨wf, h1, h2, heq⟩
    · rw [heq]
      have : 0 ≤ 32 * (f.eps * f.high) := by positivity
      linarith
    · rw [heq]
      refine max_le (by nlinarith) (by nlinarith)

/-- Witness instance for `c5_widen_min_max_range`. -/
theorem c5_widen_min_max_range_witness :
    -(finfo32.high * (1 + 32 * finfo32.eps)) ≤ (widen_min_max finfo32 0 1).1 ∧
      (widen_min_max finfo32 0 1).1 < (widen_min_max finfo32 0 1).2 ∧
      (widen_min_max finfo32 0 1).2 ≤ finfo32.high * (1 + 32 * finfo32.eps) :=
  c5_widen_min_max_range finfo32 0 1 (by norm_num [finfo32]) (by norm_num [finfo32])
    (by norm_num [finfo32]) (by norm_num) (by norm_num [finfo32]) (by norm_num [finfo32])

/-- Modelled from the spec: `bins + 1` linearly spaced histogram edges
between `a` and `b` (`torch.linspace(a, b, bins + 1)`). -/
def edgesOf (a b : ℚ) (bins : Nat) : List ℚ :=
  (List.range (bins + 1)).map fun i : Nat => a + (b - a) * (i : ℚ) / bins

theorem edgesOf_length (a b : ℚ) (bins : Nat) : (edgesOf a b bins).length = bins + 1 := by
  rw [edgesOf, List.length_map, List.length_range]

theorem chain'_map_range (g : Nat → ℚ) (n : Nat) (R : ℚ → ℚ → Prop)
    (h : ∀ i, i < n → R (g i) (g (i + 1))) :
    List.Chain' R ((List.range (n + 1)).map g) := by
  rw [List.chain'_map, List.chain'_range_succ]
  exact h

/-- Adjacent edges of a linear subdivision differ by exactly a `bins`-th of
the interval width. -/
theorem edgesOf_chain (a b step : ℚ) (bins : Nat) (hbins : 0 < bins)
    (hw : bins * step ≤ b - a) :
    List.Chain' (fun x y => x + step ≤ y) (edgesOf a b bins) := by
  rw [edgesOf]
  apply chain'_map_range
  intro i hi
  have hgap : (a + (b - a) * ((i : ℚ) + 1) / bins) - (a + (b - a) * (i : ℚ) / bins)
      = (b - a) / bins := by
    field_simp
    ring
  have hbq : (0 : ℚ) < (bins : ℚ) := by exact_mod_cast hbins
  have hstep : step ≤ (b - a) / bins := by
    rw [le_div_iff hbq]
    linarith [hw, mul_comm (bins : ℚ) step]
  have hcast : ((i + 1 : ℕ) : ℚ) = (i : ℚ) + 1 := by push_cast; ring
  rw [hcast]
  linarith [hgap, hstep]

/-- Claim C3: for all `tmin ≤ tmax`, the widened bounds are far enough apart
that the 65 linearly spaced samples between them are pairwise distinct at the
tensor's native precision.  Native-precision distinctness is modelled over ℚ
as: adjacent samples are separated by at least one representable precision
step, `eps * max |midpoint| tiny`, hence no two adjacent edges can round to
the same representable float; pairwise strict monotonicity follows. -/
theorem c3_widen_min_max_distinct_edges (f : FInfo) (tmin tmax : ℚ)
    (heps : 0 < f.eps) (htiny : 0 < f.tiny) (hle : tmin ≤ tmax) :
    (edgesOf (widen_min_max f tmin tmax).1 (widen_min_max f tmin tmax).2 64).length
        = 65 ∧
      List.Chain' (fun x y => x + f.eps * max |(tmin + tmax) / 2| f.tiny ≤ y)
        (edgesOf (widen_min_max f tmin tmax).1 (widen_min_max f tmin tmax).2 64) ∧
      List.Pairwise (· < ·)
        (edgesOf (widen_min_max f tmin tmax).1 (widen_min_max f tmin tmax).2 64) := by
  have hstep0 : 0 < f.eps * max |(tmin + tmax) / 2| f.tiny :=
    mul_pos heps (lt_of_lt_of_le htiny (le_max_right _ _))
  have hwidth := widen_min_max_width f tmin tmax (le_of_lt heps) (le_of_lt htiny)
  have hchain : List.Chain' (fun x y => x + f.eps * max |(tmin + tmax) / 2| f.tiny ≤ y)
      (edgesOf (widen_min_max f tmin tmax).1 (widen_min_max f tmin tmax).2 64) := by
    apply edgesOf_chain _ _ _ 64 (by norm_num)
    push_cast
    linarith
  refine ⟨edgesOf_length _ _ _, hchain, ?_⟩
  have hlt : List.Chain' (· < ·)
      (edgesOf (widen_min_max f tmin tmax).1 (widen_min_max f tmin tmax).2 64) :=
    hchain.imp fun a b hab => by linarith
  exact List.chain'_iff_pairwise.mp hlt

/-- Witness instance for `c3_widen_min_max_distinct_edges`. -/
theorem c3_widen_min_max_distinct_edges_witness :
    (edgesOf (widen_min_max finfo32 0 1).1 (widen_min_max finfo32 0 1).2 64).length
        = 65 ∧
      List.Chain' (fun x y => x + finfo32.eps * max |((0 : ℚ) + 1) / 2| finfo32.tiny ≤ y)
        (edgesOf (widen_min_max finfo32 0 1).1 (widen_min_max finfo32 0 1).2 64) ∧
      List.Pairwise (· < ·)
        (edgesOf (widen_min_max finfo32 0 1).1 (widen_min_max finfo32 0 1).2 64) :=
  c3_widen_min_max_distinct_edges finfo32 0 1 (by norm_num [finfo32])
    (by norm_num [finfo32]) (by norm_num)

/-- A tensor entry: a finite rational value, or one of the non-finite
floating-point values NaN, `+Inf`, `-Inf`. -/
inductive TVal where
  | fin (q : ℚ)
  | nan
  | pinf
  | ninf
deriving DecidableEq

/-- A value is finite when it is neither NaN nor an infinity. -/
def TVal.isFinite : TVal → Bool
  | TVal.fin _ => true
  | _ => false

/-- Modelled from the spec: `_remove_invalid_entries`, the filtering step
that keeps only the finite entries of the flattened tensor. -/
def finiteVals (t : List TVal) : List ℚ :=
  t.filterMap fun v =>
    match v with
    | TVal.fin q => some q
    | _ => none

/-- A histogram record: bin edges and bin counts. -/
structure HistRecord where
  bin_edges : List ℚ
  bin_counts : List Nat

/-- The bin index of a value: the standard linear-histogram bin, with the
rightmost edge folded into the last bin. -/
def binIdx (tmin2 width : ℚ) (bins : Nat) (v : ℚ) : Nat :=
  min (bins - 1) (((v - tmin2) * bins / width).floor.toNat)

/-- Modelled from the spec: `torch.histc`-style accumulation over `bins`
equal-width bins between `tmin2` and `tmax2`; a value equal to the rightmost
edge falls into the last bin. -/
def histc (vals : List ℚ) (bins : Nat) (tmin2 tmax2 : ℚ) : List Nat :=
  (List.range bins).map fun j =>
    vals.countP fun v => binIdx tmin2 (tmax2 - tmin2) bins v == j

/-- Modelled from the spec: `summarize(tensor, bin_count)`.  Filter out
non-finite entries; if nothing remains return `Empty` (`none`); otherwise
take the min and max, widen them with `_widen_min_max`, and build the
histogram record from `bin_count + 1` linearly spaced edges and the bin
counts. -/
def summarize (f : FInfo) (t : List TVal) (bins : Nat) : Option HistRecord :=
  match finiteVals t with
  | [] => none
  | v :: vs =>
    some { bin_edges :=
            edgesOf (widen_min_max f (vs.foldl min v) (vs.foldl max v)).1
              (widen_min_max f (vs.foldl min v) (vs.foldl max v)).2 bins
           bin_counts :=
            histc (v :: vs) bins (widen_min_max f (vs.foldl min v) (vs.foldl max v)).1
              (widen_min_max f (vs.foldl min v) (vs.foldl max v)).2 }

theorem foldl_min_le (vs : List ℚ) : ∀ v : ℚ, vs.foldl min v ≤ v := by
  induction vs with
  | nil => intro v; exact le_rfl
  | cons a as ih => intro v; exact le_trans (ih (min v a)) (min_le_left _ _)

theorem le_foldl_max (vs : List ℚ) : ∀ v : ℚ, v ≤ vs.foldl max v := by
  induction vs with
  | nil => intro v; exact le_rfl
  | cons a as ih => intro v; exact le_trans (le_max_left _ _) (ih (max v a))

theorem sum_map_add_nat (l : List Nat) (A B : Nat → Nat) :
    (l.map fun j => A j + B j).sum = (l.map A).sum + (l.map B).sum := by
  induction l with
  | nil => simp
  | cons a as ih =>
    simp only [List.map_cons, List.sum_cons, ih]
    omega

theorem sum_indicator_range (k : Nat) : ∀ n : Nat,
    ((List.range n).map fun j => if k = j then 1 else 0).sum
      = if k < n then 1 else 0 := by
  intro n
  induction n with
  | zero => simp
  | succ n ih =>
    rw [List.range_succ, List.map_append, List.sum_append]
    simp only [List.map_cons, List.map_nil, List.sum_cons, List.sum_nil, ih]
    by_cases h : k < n
    · have h2 : k ≠ n := by omega
      have h3 : k < n + 1 := by omega
      simp [h, h2, h3]
    · by_cases h4 : k = n
      · have h5 : k < n + 1 := by omega
        simp [h, h4, h5]
      · have h5 : ¬k < n + 1 := by omega
        simp [h, h4, h5]

/-- Summing the per-bin counts of any bin classifier that always lands below
`bins` recovers the number of classified values. -/
theorem sum_countP_range (g : ℚ → Nat) (bins : Nat) (hg : ∀ v : ℚ, g v < bins) :
    ∀ vals : List ℚ,
      ((List.range bins).map fun j => vals.countP fun v => g v == j).sum
        = vals.length := by
  intro vals
  induction vals with
  | nil => simp
  | cons v vs ih =>
    have hrw : (fun j => (v :: vs).countP fun x => g x == j)
        = fun j => (vs.countP fun x => g x == j) + if g v = j then 1 else 0 := by
      funext j
      rw [List.countP_cons]
      simp [beq_iff_eq]
    rw [hrw, sum_map_add_nat, ih, sum_indicator_range, if_pos (hg v), List.length_cons]

/-- Claim C1: for every tensor with at least one finite value and every
positive bin count, `summarize` returns a record with exactly `bins + 1`
strictly increasing edges and `bins` non-negative counts whose sum is the
number of finite values (with `bins = 64` this is 65 edges, the
instrumented logging path). -/
theorem c1_summarize_record (f : FInfo) (t : List TVal) (bins : Nat)
    (heps : 0 < f.eps) (htiny : 0 < f.tiny) (hbins : 0 < bins)
    (hne : finiteVals t ≠ []) :
    ∃ r : HistRecord, summarize f t bins = some r ∧
      r.bin_edges.length = bins + 1 ∧
      List.Pairwise (· < ·) r.bin_edges ∧
      r.bin_counts.length = bins ∧
      (∀ c ∈ r.bin_counts, 0 ≤ c) ∧
      r.bin_counts.sum = (finiteVals t).length := by
  obtain ⟨v, vs, hvv⟩ : ∃ v vs, finiteVals t = v :: vs := by
    cases hvv : finiteVals t with
    | nil => exact absurd hvv hne
    | cons v vs => exact ⟨v, vs, rfl⟩
  have hminmax : vs.foldl min v ≤ vs.foldl max v :=
    le_trans (foldl_min_le vs v) (le_foldl_max vs v)
  have hstep0 : 0 < f.eps * max |(vs.foldl min v + vs.foldl max v) / 2| f.tiny :=
    mul_pos heps (lt_of_lt_of_le htiny (le_max_right _ _))
  have hwidth := widen_min_max_width f (vs.foldl min v) (vs.foldl max v)
    (le_of_lt heps) (le_of_lt htiny)
  have hpos : (widen_min_max f (vs.foldl min v) (vs.foldl max v)).1
      < (widen_min_max f (vs.foldl min v) (vs.foldl max v)).2 := by linarith
  refine ⟨HistRecord.mk
      (edgesOf (widen_min_max f (vs.foldl min v) (vs.foldl max v)).1
        (widen_min_max f (vs.foldl min v) (vs.foldl max v)).2 bins)
      (histc (v :: vs) bins (widen_min_max f (vs.foldl min v) (vs.foldl max v)).1
        (widen_min_max f (vs.foldl min v) (vs.foldl max v)).2),
    by simp only [summarize, hvv], edgesOf_length _ _ _, ?_, ?_,
    fun c _ => Nat.zero_le c, ?_⟩
  · have hbq : (0 : ℚ) < (bins : ℚ) := by exact_mod_cast hbins
    have hch := edgesOf_chain (widen_min_max f (vs.foldl min v) (vs.foldl max v)).1
      (widen_min_max f (vs.foldl min v) (vs.foldl max v)).2
      (((widen_min_max f (vs.foldl min v) (vs.foldl max v)).2
        - (widen_min_max f (vs.foldl min v) (vs.foldl max v)).1) / bins) bins hbins
      (by rw [mul_div_cancel₀]; exact ne_of_gt hbq)
    have hlt : List.Chain' (· < ·)
        (edgesOf (widen_min_max f (vs.foldl min v) (vs.foldl max v)).1
          (widen_min_max f (vs.foldl min v) (vs.foldl max v)).2 bins) :=
      hch.imp fun a b hab => by
        have : 0 < ((widen_min_max f (vs.foldl min v) (vs.foldl max v)).2
            - (widen_min_max f (vs.foldl min v) (vs.foldl max v)).1) / bins :=
          div_pos (by linarith) hbq
        linarith
    exact List.chain'_iff_pairwise.mp hlt
  · simp [histc]
  · rw [hvv]
    exact sum_countP_range
      (binIdx (widen_min_max f (vs.foldl min v) (vs.foldl max v)).1
        ((widen_min_max f (vs.foldl min v) (vs.foldl max v)).2
          - (widen_min_max f (vs.foldl min v) (vs.foldl max v)).1) bins) bins
      (fun x => lt_of_le_of_lt (min_le_left _ _) (by omega)) (v :: vs)

/-- Witness instance for `c1_summarize_record`: the 64-bin instrumented path
on a tensor with one finite and two non-finite values. -/
theorem c1_summarize_record_witness :
    ∃ r : HistRecord,
      summarize finfo32 [TVal.fin 1, TVal.nan, TVal.pinf] 64 = some r ∧
      r.bin_edges.length = 64 + 1 ∧
      List.Pairwise (· < ·) r.bin_edges ∧
      r.bin_counts.length = 64 ∧
      (∀ c ∈ r.bin_counts, 0 ≤ c) ∧
      r.bin_counts.sum = (finiteVals [TVal.fin 1, TVal.nan, TVal.pinf]).length :=
  c1_summarize_record finfo32 [TVal.fin 1, TVal.nan, TVal.pinf] 64
    (by norm_num [finfo32]) (by norm_num [finfo32]) (by norm_num)
    (by simp [finiteVals])

/-- Claim C2: `summarize` returns `Empty` (`none`) exactly when the tensor
has no finite values, i.e. it is empty or every entry is NaN or an infinity;
a tensor with at least one finite value among non-finite entries does not
resolve to `Empty`, and `summarize` is total (it never raises). -/
theorem c2_summarize_empty_iff (f : FInfo) (t : List TVal) (bins : Nat) :
    (summarize f t bins = none ↔ finiteVals t = []) ∧
      (finiteVals t = [] ↔ ∀ v ∈ t, v.isFinite = false) ∧
      summarize f [TVal.fin 1, TVal.nan, TVal.pinf] bins ≠ none ∧
      summarize f [TVal.nan, TVal.nan] bins = none := by
  have hiff : ∀ s : List TVal, summarize f s bins = none ↔ finiteVals s = [] := by
    intro s
    cases hvv : finiteVals s with
    | nil => simp [summarize, hvv]
    | cons v vs => simp [summarize, hvv]
  have hchar : finiteVals t = [] ↔ ∀ v ∈ t, v.isFinite = false := by
    rw [finiteVals, List.filterMap_eq_nil_iff]
    constructor
    · intro h v hv
      have := h v hv
      cases v <;> simp_all [TVal.isFinite]
    · intro h v hv
      have := h v hv
      cases v <;> simp_all [TVal.isFinite]
  refine ⟨hiff t, hchar, ?_, ?_⟩
  · rw [Ne, hiff]
    simp [finiteVals]
  · rw [hiff]
    simp [finiteVals]

/-! ### Part 3: the cycle-safe shape inspector `nested_shape` -/

/-- A Python value as seen by the shape inspector: a tensor with known
dimension sizes, a reference (object identity) to a container held on the
heap, or any other value. -/
inductive PyVal where
  | tensor (dims : List Nat)
  | ref (i : Nat)
  | other

/-- A shape descriptor mirroring the JSON-like output of `nested_shape`:
a number (tensor dimension sizes, and the cycle sentinel `0`) or a list. -/
inductive SDesc where
  | num (n : Nat)
  | lst (l : List SDesc)

instance : Inhabited SDesc := ⟨SDesc.num 0⟩

/-- The heap of container objects: object identity `i` holds the element
list `h[i]`. -/
abbrev Heap := List (List PyVal)

/-- How many container identities are not yet in the visited set. -/
def unvisitedCount (h : Heap) (vis : List Nat) : Nat :=
  (List.range h.length).countP fun i => !vis.contains i

theorem countP_lt_of_flip (l : List Nat) (p q : Nat → Bool)
    (hmono : ∀ x, p x = true → q x = true) (i : Nat) (hi : i ∈ l)
    (hqi : q i = true) (hpi : p i = false) :
    l.countP p < l.countP q := by
  induction l with
  | nil => cases hi
  | cons a as ih =>
    rw [List.countP_cons, List.countP_cons]
    have hle : as.countP p ≤ as.countP q :=
      List.countP_mono_left fun x _ hx => hmono x hx
    rcases List.mem_cons.mp hi with rfl | hmem
    · rw [if_neg (by simp [hpi]), if_pos hqi]
      omega
    · have hlt := ih hmem
      have hpq : (if p a = true then 1 else 0) ≤ (if q a = true then 1 else 0) := by
        by_cases hpa : p a = true
        · rw [if_pos hpa, if_pos (hmono a hpa)]
        · rw [if_neg hpa]
          exact Nat.zero_le _
      omega

theorem unvisitedCount_mono (h : Heap) (vis vis2 : List Nat) (hsub : vis ⊆ vis2) :
    unvisitedCount h vis2 ≤ unvisitedCount h vis := by
  apply List.countP_mono_left
  intro x hx hbx
  simp only [Bool.not_eq_true', ← Bool.not_eq_true] at hbx ⊢
  intro hmem
  rw [List.contains_iff_exists_mem_beq] at hmem
  obtain ⟨b, hb, hxb⟩ := hmem
  have hxb2 : x = b := by
    simpa using hxb
  subst hxb2
  exact hbx (by rw [List.contains_iff_exists_mem_beq]; exact ⟨x, hsub hb, by simp⟩)

theorem unvisitedCount_cons_lt (h : Heap) (i : Nat) (vis : List Nat)
    (hi : i < h.length) (hvi : vis.contains i = false) :
    unvisitedCount h (i :: vis) < unvisitedCount h vis := by
  refine countP_lt_of_flip _ _ _ ?_ i (List.mem_range.mpr hi) ?_ ?_
  · intro x hx
    simp only [Bool.not_eq_true', List.contains_cons] at hx ⊢
    rcases Bool.or_eq_false_iff.mp hx with ⟨_, h2⟩
    exact h2
  · have hvi2 : i ∉ vis := by simpa using hvi
    simp [hvi2]
  · simp

/-- Modelled from the spec: the recursive worker of `nested_shape` (absent
from the provided sources), processing a list of values left to right while
threading the identity-keyed `visited` set through the recursion, exactly as
the single mutable `seen` set is shared in one top-level Python call.  A
tensor contributes its dimension sizes, a container reference already in the
visited set contributes the sentinel `0`, a fresh container reference is
marked visited and recursed into, and any other value contributes an empty
list.  The result carries the proof that the visited set only grows, which
also bounds the recursion: every nested step either shrinks the value list
or strictly shrinks the set of unvisited container identities. -/
def shapeRun (h : Heap) : (vs : List PyVal) → (vis : List Nat) →
    {p : List SDesc × List Nat // vis ⊆ p.2}
  | [], vis => ⟨([], vis), fun _ hx => hx⟩
  | PyVal.tensor dims :: vs, vis =>
    let rest := shapeRun h vs vis
    ⟨(SDesc.lst (dims.map SDesc.num) :: rest.1.1, rest.1.2), rest.2⟩
  | PyVal.other :: vs, vis =>
    let rest := shapeRun h vs vis
    ⟨(SDesc.lst [] :: rest.1.1, rest.1.2), rest.2⟩
  | PyVal.ref i :: vs, vis =>
    if hv : vis.contains i then
      let rest := shapeRun h vs vis
      ⟨(SDesc.num 0 :: rest.1.1, rest.1.2), rest.2⟩
    else
      match hg : h[i]? with
      | some elems =>
        let inner := shapeRun h elems (i :: vis)
        let rest := shapeRun h vs inner.1.2
        ⟨(SDesc.lst inner.1.1 :: rest.1.1, rest.1.2),
          fun x hx => rest.2 (inner.2 (List.mem_cons_of_mem i hx))⟩
      | none =>
        let rest := shapeRun h vs vis
        ⟨(SDesc.lst [] :: rest.1.1, rest.1.2), rest.2⟩
termination_by vs vis => (unvisitedCount h vis, sizeOf vs)
decreasing_by
  · apply Prod.Lex.right
    simp
  · apply Prod.Lex.right
    simp
  · apply Prod.Lex.right
    simp
  · apply Prod.Lex.left
    have hi : i < h.length := by
      rcases List.getElem?_eq_some.mp hg with ⟨hlt, _⟩
      exact hlt
    exact unvisitedCount_cons_lt h i vis hi (Bool.not_eq_true _ ▸ hv)
  · apply Prod.Lex.left
    have hi : i < h.length := by
      rcases List.getElem?_eq_some.mp hg with ⟨hlt, _⟩
      exact hlt
    exact lt_of_le_of_lt (unvisitedCount_mono h _ _ inner.2)
      (unvisitedCount_cons_lt h i vis hi (Bool.not_eq_true _ ▸ hv))
  · apply Prod.Lex.right
    simp

/-- Modelled from the spec: `nested_shape(value)`, a top-level call with a
fresh visited set. -/
def nested_shape (h : Heap) (v : PyVal) : SDesc :=
  ((shapeRun h [v] []).1.1).headI

theorem shapeRun_nil (h : Heap) (vis : List Nat) :
    (shapeRun h [] vis).1 = ([], vis) := by
  rw [shapeRun]

theorem shapeRun_tensor (h : Heap) (dims : List Nat) (vs : List PyVal)
    (vis : List Nat) :
    (shapeRun h (PyVal.tensor dims :: vs) vis).1
      = (SDesc.lst (dims.map SDesc.num) :: (shapeRun h vs vis).1.1,
         (shapeRun h vs vis).1.2) := by
  rw [shapeRun]

theorem shapeRun_other (h : Heap) (vs : List PyVal) (vis : List Nat) :
    (shapeRun h (PyVal.other :: vs) vis).1
      = (SDesc.lst [] :: (shapeRun h vs vis).1.1, (shapeRun h vs vis).1.2) := by
  rw [shapeRun]

theorem shapeRun_ref_visited (h : Heap) (i : Nat) (vs : List PyVal)
    (vis : List Nat) (hm : vis.contains i = true) :
    (shapeRun h (PyVal.ref i :: vs) vis).1
      = (SDesc.num 0 :: (shapeRun h vs vis).1.1, (shapeRun h vs vis).1.2) := by
  rw [shapeRun, dif_pos hm]

theorem shapeRun_ref_fresh (h : Heap) (i : Nat) (elems vs : List PyVal)
    (vis : List Nat) (hm : vis.contains i = false) (hget : h[i]? = some elems) :
    (shapeRun h (PyVal.ref i :: vs) vis).1
      = (SDesc.lst (shapeRun h elems (i :: vis)).1.1
           :: (shapeRun h vs (shapeRun h elems (i :: vis)).1.2).1.1,
         (shapeRun h vs (shapeRun h elems (i :: vis)).1.2).1.2) := by
  have hnc : ¬(vis.contains i = true) := by rw [hm]; simp
  rw [shapeRun, dif_neg hnc]
  split
  · rename_i elems2 hg2
    rw [hget] at hg2
    obtain rfl : elems2 = elems := (Option.some_inj.mp hg2).symm
    rfl
  · rename_i hg2
    rw [hget] at hg2
    cases hg2

/-- The heap of the recursive-list scenario from `test_nested_shape`:
identity 0 is the list `L = [t1, t2, L, t2]` (it contains itself), identity 1
the top-level argument `[t1, t2, L]`, with `t1` of shape `(2, 3)` and `t2` of
shape `(4, 5)`. -/
def demoHeap : Heap :=
  [[PyVal.tensor [2, 3], PyVal.tensor [4, 5], PyVal.ref 0, PyVal.tensor [4, 5]],
   [PyVal.tensor [2, 3], PyVal.tensor [4, 5], PyVal.ref 0]]

/-- Claim C7: `nested_shape` terminates on every nested structure, also
self-referential ones (it is a total function by construction); a tensor
maps to its dimension sizes, a container already visited in the same
top-level call maps to the sentinel `0`, a fresh container maps to the
sequence of its elements' descriptors (with the visited set threaded on), and
any other value maps to an empty sequence; on the cyclic scenario
`[t1, t2, L]` with `L = [t1, t2, L, t2]` the result is
`[[2,3],[4,5],[[2,3],[4,5],0,[4,5]]]`. -/
theorem c7_nested_shape (h : Heap) :
    (∀ dims : List Nat,
      nested_shape h (PyVal.tensor dims) = SDesc.lst (dims.map SDesc.num)) ∧
    nested_shape h PyVal.other = SDesc.lst [] ∧
    (∀ (i : Nat) (vs : List PyVal) (vis : List Nat), vis.contains i = true →
      (shapeRun h (PyVal.ref i :: vs) vis).1.1
        = SDesc.num 0 :: (shapeRun h vs vis).1.1) ∧
    (∀ (i : Nat) (elems vs : List PyVal) (vis : List Nat),
      vis.contains i = false → h[i]? = some elems →
      (shapeRun h (PyVal.ref i :: vs) vis).1.1
        = SDesc.lst (shapeRun h elems (i :: vis)).1.1
            :: (shapeRun h vs (shapeRun h elems (i :: vis)).1.2).1.1) ∧
    nested_shape demoHeap (PyVal.ref 1)
      = SDesc.lst [SDesc.lst [SDesc.num 2, SDesc.num 3],
          SDesc.lst [SDesc.num 4, SDesc.num 5],
          SDesc.lst [SDesc.lst [SDesc.num 2, SDesc.num 3],
            SDesc.lst [SDesc.num 4, SDesc.num 5], SDesc.num 0,
            SDesc.lst [SDesc.num 4, SDesc.num 5]]] := by
  refine ⟨?_, ?_, ?_, ?_, ?_⟩
  · intro dims
    simp [nested_shape, shapeRun]
  · simp [nested_shape, shapeRun]
  · intro i vs vis hcont
    rw [shapeRun_ref_visited h i vs vis hcont]
  · intro i elems vs vis hcont hget
    rw [shapeRun_ref_fresh h i elems vs vis hcont hget]
  · simp only [nested_shape, demoHeap]
    simp +decide [shapeRun_tensor, shapeRun_other, shapeRun_ref_visited,
      shapeRun_ref_fresh, shapeRun_nil]

/-- Witness instance for `c7_nested_shape`: the visited-container and
fresh-container clauses at concrete inputs from the cyclic scenario. -/
theorem c7_nested_shape_witness :
    ((shapeRun demoHeap [PyVal.ref 0] [0]).1.1
        = SDesc.num 0 :: (shapeRun demoHeap [] [0]).1.1) ∧
      ((shapeRun demoHeap [PyVal.ref 1] []).1.1
        = SDesc.lst (shapeRun demoHeap
              [PyVal.tensor [2, 3], PyVal.tensor [4, 5], PyVal.ref 0] [1]).1.1
            :: (shapeRun demoHeap []
              (shapeRun demoHeap
                [PyVal.tensor [2, 3], PyVal.tensor [4, 5], PyVal.ref 0] [1]).1.2).1.1) :=
  ⟨(c7_nested_shape demoHeap).2.2.1 0 [] [0] (by rfl),
   (c7_nested_shape demoHeap).2.2.2.1 1
     [PyVal.tensor [2, 3], PyVal.tensor [4, 5], PyVal.ref 0] [] [] (by rfl) (by rfl)⟩

/-! ### Part 4: watch registration -/

/-- Modelled from the spec: the per-process registry of models whose graph
extraction has been instrumented, keyed by model identity. -/
structure WatchState where
  watched : List Nat

/-- The descriptive message of the validation failure raised when the same
model is watched twice without resetting. -/
def watchErrorMsg : String :=
  "You can only call wandb.watch once per model. Pass a new instance of the model if you need to call wandb.watch again in your code."

/-- Modelled from the spec: `wandb.watch` (absent from the provided sources).
Watching a model registers its identity; watching an already-registered
model raises a `ValueError` (a validation failure fatal only to that call,
returned as `Except.error`), leaving the registry unchanged in the caller's
hands. -/
def watch (s : WatchState) (m : Nat) : Except String WatchState :=
  if s.watched.contains m then Except.error watchErrorMsg
  else Except.ok (WatchState.mk (m :: s.watched))

/-- Claim C8: watching a fresh model succeeds and registers it; watching the
same model a second time without resetting fails with the descriptive
validation message; the failure is an error value, not a crash, and the
first registration remains in effect (the model stays registered). -/
theorem c8_double_watch_raises (s : WatchState) (m : Nat)
    (hfresh : s.watched.contains m = false) :
    ∃ s2 : WatchState, watch s m = Except.ok s2 ∧
      s2.watched.contains m = true ∧
      watch s2 m = Except.error watchErrorMsg ∧
      watchErrorMsg ≠ "" := by
  have hf2 : m ∉ s.watched := by simpa using hfresh
  refine ⟨WatchState.mk (m :: s.watched), ?_, ?_, ?_, by decide⟩
  · simp [watch, hf2]
  · simp
  · simp [watch]

/-- Witness instance for `c8_double_watch_raises`: an empty registry and
model identity `0`. -/
theorem c8_double_watch_raises_witness :
    ∃ s2 : WatchState, watch (WatchState.mk []) 0 = Except.ok s2 ∧
      s2.watched.contains 0 = true ∧
      watch s2 0 = Except.error watchErrorMsg ∧
      watchErrorMsg ≠ "" :=
  c8_double_watch_raises (WatchState.mk []) 0 (by rfl)

end Wandb
